import Mathlib

set_option maxHeartbeats 1000000
set_option maxRecDepth 8000

/-! Verification of the sci_comp_extra1 aggregation pipeline.

Shallow embedding of `src/main.rs` (streaming-mean variant) and
`src/main_old.rs` (exact-median variant).

Modelling conventions:
* Bytes are natural numbers (65 = `A`, 59 = `;`, 10 = newline, 46 = `.`,
  45 = `-`, 48..57 = digits).
* The `f64` values of the source are modelled as rationals: the input format
  only produces decimal literals, which are exactly representable, and float
  arithmetic is idealised as exact rational arithmetic.
* `HashMap`s are modelled as association lists in insertion order; for the
  old variant's frequency `HashMap<NotNan<f64>, u64>`, whose iteration order
  is unspecified, we use the construction order of `StationValues::new`,
  which is ascending key order (the most favourable order for the
  rank-selection code of `get_nth_value`).
* Panics (`unwrap` / `expect`) are modelled with `Except PanicKind`; the
  reader loop's panic is modelled with `Option`.
* Loops that are not structurally recursive carry a fuel argument so that
  they still reduce definitionally; the top-level wrappers pass fuel that
  provably never runs out. -/

/-- first index of byte `c` in `l`, i.e. `memchr::memchr` of the source. -/
def memchr (c : ℕ) : List ℕ → Option ℕ
  | [] => none
  | b :: bs => if b = c then some 0 else (memchr c bs).map (· + 1)

/-- last index of a newline byte: `bytes.iter().rposition(|&b| b == b'\n')`,
the body of `find_new_line_pos` in both source files. -/
def find_new_line_pos : List ℕ → Option ℕ
  | [] => none
  | b :: bs =>
    match find_new_line_pos bs with
    | some i => some (i + 1)
    | none => if b = 10 then some 0 else none

/-- decimal digit value of an ASCII byte. -/
def digitVal (b : ℕ) : Option ℕ := if 48 ≤ b ∧ b ≤ 57 then some (b - 48) else none

/-- accumulate a run of decimal digits; fails on a non-digit byte or keeps
the accumulator on the empty list. -/
def parseDigitsAcc (acc : ℕ) : List ℕ → Option ℕ
  | [] => some acc
  | b :: bs =>
    match digitVal b with
    | some d => parseDigitsAcc (acc * 10 + d) bs
    | none => none

/-- unsigned decimal: `digits` or `digits.digits`, exactly as a rational. -/
def parseUnsigned (bs : List ℕ) : Option ℚ :=
  match memchr 46 bs with
  | none => if bs = [] then none else (parseDigitsAcc 0 bs).map (fun n => (n : ℚ))
  | some i =>
    let intPart := bs.take i
    let fracPart := bs.drop (i + 1)
    if intPart = [] ∨ fracPart = [] then none
    else
      match parseDigitsAcc 0 intPart, parseDigitsAcc 0 fracPart with
      | some n, some f => some ((n : ℚ) + (f : ℚ) / (10 : ℚ) ^ fracPart.length)
      | _, _ => none

/-- the external `fast_float::parse` dependency on the value field, modelled
on the input grammar of the spec (§6): an optional minus sign followed by a
decimal literal, parsed exactly into a rational; anything else fails (the
source turns the failure into the `Failed to parse value` panic). -/
def parseValue : List ℕ → Option ℚ
  | [] => none
  | b :: bs => if b = 45 then (parseUnsigned bs).map (fun q => -q) else parseUnsigned (b :: bs)

/-- Rust `f64::round`: nearest integer, ties rounded away from zero,
idealised on the rationals. -/
def rustRound (q : ℚ) : ℚ :=
  if 0 ≤ q then ((⌊q + 1/2⌋ : ℤ) : ℚ) else ((⌈q - 1/2⌉ : ℤ) : ℚ)

/-- `round_off` of both source files: `(value * 10.0).round() / 10.0`. -/
def round_off (value : ℚ) : ℚ := rustRound (value * 10) / 10

/-- the panics that can abort the pipeline: the `memchr(b'\n', ..).unwrap()`
in `process_chunk`, the `expect("Failed to parse value")`, the
`frequency.get_mut(..).unwrap()` of the old variant, and fuel exhaustion of
the model (never reached from the top-level wrappers). -/
inductive PanicKind where
  | newlineUnwrap
  | parseFail
  | domainUnwrap
  | fuelOut
deriving DecidableEq

namespace Main

/-- per-station state of `src/main.rs`; `mean` is the running sum, turned
into the mean only at finalize time, exactly as in the source. -/
structure StationValues where
  min : ℚ
  max : ℚ
  mean : ℚ
  count : ℕ
deriving DecidableEq

/-- a worker's `HashMap<Box<[u8]>, StationValues>` as an association list
in insertion order. -/
abbrev StationsMap := List (List ℕ × StationValues)

/-- the `or_insert` arm of `process_chunk`: first observation of a station. -/
def initStation (value : ℚ) : StationValues :=
  { min := value, max := value, mean := value, count := 1 }

/-- the `and_modify` arm of `process_chunk` (main.rs lines 44-53). -/
def observeStation (e : StationValues) (value : ℚ) : StationValues :=
  { min := if value < e.min then value else e.min
    max := if e.max < value then value else e.max
    mean := e.mean + value
    count := e.count + 1 }

/-- `result.entry(name).and_modify(..).or_insert(..)` on an association
list. -/
def insertObserve : StationsMap → List ℕ → ℚ → StationsMap
  | [], name, value => [(name, initStation value)]
  | (k, e) :: rest, name, value =>
    if k = name then (k, observeStation e value) :: rest
    else (k, e) :: insertObserve rest name value

/-- loop body of `process_chunk` (main.rs lines 31-63): find the first `;`,
then the first `\n` after it (its absence is the unwrap panic), parse the
value field, update the map and continue after the newline. -/
def processGo : ℕ → List ℕ → StationsMap → Except PanicKind StationsMap
  | 0, _, _ => .error .fuelOut
  | fuel + 1, buffer, result =>
    match memchr 59 buffer with
    | none => .ok result
    | some comma =>
      match memchr 10 (buffer.drop comma) with
      | none => .error .newlineUnwrap
      | some e =>
        let name := buffer.take comma
        let valueBytes := (buffer.drop (comma + 1)).take (e - 1)
        match parseValue valueBytes with
        | none => .error .parseFail
        | some value =>
          processGo fuel (buffer.drop (comma + e + 1)) (insertObserve result name value)

/-- `process_chunk` of main.rs; the loop consumes at least one byte per
iteration, so `length + 1` units of fuel never run out. -/
def process_chunk (data : List ℕ) (result : StationsMap) : Except PanicKind StationsMap :=
  processGo (data.length + 1) data result

/-- number of records the `process_chunk` loop consumes (same recursion
structure, used to state count conservation). -/
def countGo : ℕ → List ℕ → ℕ
  | 0, _ => 0
  | fuel + 1, buffer =>
    match memchr 59 buffer with
    | none => 0
    | some comma =>
      match memchr 10 (buffer.drop comma) with
      | none => 0
      | some e => countGo fuel (buffer.drop (comma + e + 1)) + 1

def countRecords (data : List ℕ) : ℕ := countGo (data.length + 1) data

/-- the `and_modify` arm of the merge stage (main.rs lines 162-171):
elementwise min/max, sums of running sums and counts. -/
def mergeStation (e s : StationValues) : StationValues :=
  { min := if s.min < e.min then s.min else e.min
    max := if e.max < s.max then s.max else e.max
    mean := e.mean + s.mean
    count := e.count + s.count }

/-- `result.entry(name).and_modify(..).or_insert(station_values)` of the
merge stage. -/
def insertMerge : StationsMap → List ℕ → StationValues → StationsMap
  | [], name, s => [(name, s)]
  | (k, e) :: rest, name, s =>
    if k = name then (k, mergeStation e s) :: rest
    else (k, e) :: insertMerge rest name s

/-- fold one worker map into the global result: the inner for-loop of the
merge stage. -/
def mergeInto (acc w : StationsMap) : StationsMap :=
  w.foldl (fun m kv => insertMerge m kv.1 kv.2) acc

/-- fold all worker maps: the outer for-loop over the joined handles. -/
def mergeAll (ws : List StationsMap) : StationsMap := ws.foldl mergeInto []

/-- finalize (main.rs lines 177-181): the running sum is divided by the
count and everything is rounded to one decimal. -/
def finalizeStation (s : StationValues) : StationValues :=
  { min := round_off s.min
    max := round_off s.max
    mean := round_off (s.mean / (s.count : ℚ))
    count := s.count }

def finalizeMap (m : StationsMap) : StationsMap :=
  m.map (fun kv => (kv.1, finalizeStation kv.2))

def lookupStation : StationsMap → List ℕ → Option StationValues
  | [], _ => none
  | (k, v) :: rest, name => if k = name then some v else lookupStation rest name

/-- sum of all per-station counts of a map. -/
def totalCount (m : StationsMap) : ℕ := (m.map (fun kv => kv.2.count)).sum

end Main

def READ_BUF_SIZE : ℕ := 128 * 1024

/-- reader loop of `calculate_station_values` (lines 121-151 of main.rs,
identical in main_old.rs).  Each round reads as many bytes as fit after the
carried-over unprocessed bytes (`File::read` modelled as reading as much as
is available), emits everything up to and including the last newline as one
chunk, and carries the tail to the next round; a full buffer with no newline
is the `No new line found in the read buffer` panic (`none`).  A zero-byte
read breaks the loop, whatever bytes are still unprocessed. -/
def splitGo : ℕ → List (List ℕ) → List ℕ → List ℕ → Option (List (List ℕ) × List ℕ)
  | 0, _, _, _ => none
  | fuel + 1, acc, leftover, rest =>
    let bytesRead := min (READ_BUF_SIZE - leftover.length) rest.length
    if bytesRead = 0 then some (acc, leftover)
    else
      let actual := leftover ++ rest.take bytesRead
      match find_new_line_pos actual with
      | none =>
        if actual.length = READ_BUF_SIZE then none
        else splitGo fuel acc actual (rest.drop bytesRead)
      | some idx =>
        splitGo fuel (acc ++ [actual.take (idx + 1)]) (actual.drop (idx + 1)) (rest.drop bytesRead)

/-- the whole reader loop on a byte stream; returns the emitted chunks in
emission order together with the unprocessed bytes left in the buffer when
the zero-byte read ended the loop.  Every round consumes at least one byte
of the stream, so `length + 1` units of fuel never run out. -/
def splitRun (stream : List ℕ) : Option (List (List ℕ) × List ℕ) :=
  splitGo (stream.length + 1) [] [] stream

/-- bytewise lexicographic order on names: the `BTreeMap` ordering used by
`write_result_stdout`. -/
def nameLe : List ℕ → List ℕ → Bool
  | [], _ => true
  | _ :: _, [] => false
  | a :: xs, b :: ys => if a < b then true else if b < a then false else nameLe xs ys

def insertSorted (kv : List ℕ × Main.StationValues) :
    List (List ℕ × Main.StationValues) → List (List ℕ × Main.StationValues)
  | [] => [kv]
  | kv' :: rest => if nameLe kv.1 kv'.1 then kv :: kv' :: rest else kv' :: insertSorted kv rest

def sortByName (m : List (List ℕ × Main.StationValues)) :
    List (List ℕ × Main.StationValues) :=
  m.foldr insertSorted []

/-- the streaming-mean pipeline on one input stream: split into chunks,
process every chunk, run the merge stage, finalize, sort by name.  Chunk
assignment to workers does not change the result (claim C4), so the model
processes the chunks in order in a single worker. -/
def runPipeline (stream : List ℕ) : Option (List (List ℕ × Main.StationValues)) :=
  match splitRun stream with
  | none => none
  | some (chunks, _) =>
    match chunks.foldlM (fun m c => Main.process_chunk c m) ([] : Main.StationsMap) with
    | .error _ => none
    | .ok m => some (sortByName (Main.finalizeMap (Main.mergeAll [m])))

namespace MainOld

/-- per-station state of `src/main_old.rs`: min/max/count plus the
fixed-domain frequency histogram. -/
structure StationValues where
  min : ℚ
  max : ℚ
  frequency : List (ℚ × ℕ)
  count : ℕ
deriving DecidableEq

/-- bucket key number `x`: the source's `-99.9 + (x as f64 * 0.1)`. -/
def gk (x : ℕ) : ℚ := -999/10 + (x : ℚ) * (1/10)

/-- the 1999 histogram buckets `-99.9 + x * 0.1` for `x` in `0..=1998`, all
zero, in the construction order of `StationValues::new` (ascending). -/
def gridPairs : List (ℚ × ℕ) :=
  (List.range 1999).map (fun x => (gk x, 0))

/-- `StationValues::new` (main_old.rs lines 29-38). -/
def new : StationValues :=
  { min := 0, max := 0, frequency := gridPairs, count := 0 }

/-- `*frequency.get_mut(&NotNan::new(value).unwrap()).unwrap() += 1`;
`none` models the unwrap panic on a value that is not a bucket key. -/
def bumpFreq : List (ℚ × ℕ) → ℚ → Option (List (ℚ × ℕ))
  | [], _ => none
  | (k, c) :: rest, v =>
    if k = v then some ((k, c + 1) :: rest)
    else (bumpFreq rest v).map (fun r => (k, c) :: r)

/-- `StationValues::new_with_value` (lines 40-47). -/
def new_with_value (value : ℚ) : Except PanicKind StationValues :=
  match bumpFreq gridPairs value with
  | none => .error .domainUnwrap
  | some freq => .ok { min := value, max := value, frequency := freq, count := 1 }

/-- the `and_modify` arm of the old `process_chunk` (lines 89-98). -/
def observe (e : StationValues) (value : ℚ) : Except PanicKind StationValues :=
  match bumpFreq e.frequency value with
  | none => .error .domainUnwrap
  | some freq => .ok
    { min := if value < e.min then value else e.min
      max := if e.max < value then value else e.max
      frequency := freq
      count := e.count + 1 }

/-- loop of `StationValues::get_nth_value` (lines 49-59) over the frequency
pairs: return the first key whose running total reaches `n`, else `0.0`. -/
def get_nth_go (n : ℕ) : ℕ → List (ℚ × ℕ) → ℚ
  | _, [] => 0
  | cur, (key, value) :: rest =>
    if n ≤ cur + value then key else get_nth_go n (cur + value) rest

def get_nth_value (s : StationValues) (n : ℕ) : ℚ := get_nth_go n 0 s.frequency

/-- `StationValues::get_median` (lines 61-70); `count / 2 - 1` is the
truncated subtraction of the source's `u64`. -/
def get_median (s : StationValues) : ℚ :=
  if s.count % 2 = 0 then
    (get_nth_value s (s.count / 2 - 1) + get_nth_value s (s.count / 2 - 1 + 1)) / 2
  else get_nth_value s (s.count / 2)

/-- the `and_modify` arm of the old merge stage (main_old.rs lines 205-213):
only `min` and `max` are updated; the line `e.mean += station_values.mean`
refers to a field this `StationValues` does not have (the file does not
compile as written), and neither `count` nor `frequency` is combined. -/
def mergeStationOld (e s : StationValues) : StationValues :=
  { e with
    min := if s.min < e.min then s.min else e.min
    max := if e.max < s.max then s.max else e.max }

def insertMergeOld :
    List (List ℕ × StationValues) → List ℕ → StationValues → List (List ℕ × StationValues)
  | [], name, s => [(name, s)]
  | (k, e) :: rest, name, s =>
    if k = name then (k, mergeStationOld e s) :: rest
    else (k, e) :: insertMergeOld rest name s

def mergeIntoOld (acc w : List (List ℕ × StationValues)) : List (List ℕ × StationValues) :=
  w.foldl (fun m kv => insertMergeOld m kv.1 kv.2) acc

def mergeAllOld (ws : List (List (List ℕ × StationValues))) : List (List ℕ × StationValues) :=
  ws.foldl mergeIntoOld []

def lookupOld : List (List ℕ × StationValues) → List ℕ → Option StationValues
  | [], _ => none
  | (k, v) :: rest, name => if k = name then some v else lookupOld rest name

/-- sum of all histogram bucket occurrences of one station. -/
def sumFreq (s : StationValues) : ℕ := (s.frequency.map (fun kv => kv.2)).sum

/-- fold further observations into a station state. -/
def obsFold : StationValues → List ℚ → Except PanicKind StationValues
  | s, [] => .ok s
  | s, v :: rest =>
    match observe s v with
    | .error p => .error p
    | .ok s' => obsFold s' rest

/-- fold a list of observations through `new_with_value` and `observe`
(used to build concrete station states). -/
def statsOf : List ℚ → Except PanicKind StationValues
  | [] => .error .fuelOut
  | v :: rest =>
    match new_with_value v with
    | .error p => .error p
    | .ok s => obsFold s rest

def oldStats (vs : List ℚ) : StationValues := (statsOf vs).toOption.getD new

end MainOld

/-- reference oracle for the median, following the spec's words: fully sort
the multiset; for even count average the `(count/2 - 1)`-th and
`(count/2)`-th order statistics (0-indexed ascending), for odd count take
the `(count/2)`-th. -/
def insertAsc (q : ℚ) : List ℚ → List ℚ
  | [] => [q]
  | x :: xs => if q ≤ x then q :: x :: xs else x :: insertAsc q xs

def sortAsc (l : List ℚ) : List ℚ := l.foldr insertAsc []

def sortedMedian (l : List ℚ) : ℚ :=
  let s := sortAsc l
  if l.length % 2 = 0 then
    (s.getD (l.length / 2 - 1) 0 + s.getD (l.length / 2) 0) / 2
  else s.getD (l.length / 2) 0

/-- concrete station name `A`. -/
def nameA : List ℕ := [65]

/-- worker map holding station A with observations 1.0 and 2.0 (old
variant). -/
def exW1 : List (List ℕ × MainOld.StationValues) := [(nameA, MainOld.oldStats [1, 2])]

/-- worker map holding station A with observation 5.0 (old variant). -/
def exW2 : List (List ℕ × MainOld.StationValues) := [(nameA, MainOld.oldStats [5])]

/-- the scenario input `"A;10.0\nA;20.0\nB;5.5\n"`. -/
def exInput : List ℕ :=
  [65, 59, 49, 48, 46, 48, 10, 65, 59, 50, 48, 46, 48, 10, 66, 59, 53, 46, 53, 10]

/-- the stream `"A;1.0\nB;2"`, whose final byte is not a newline. -/
def exNoNl : List ℕ := [65, 59, 49, 46, 48, 10, 66, 59, 50]

/-! Helper lemmas about the byte-scanning primitives. -/

theorem memchr_eq_none {c : ℕ} : ∀ {l : List ℕ}, memchr c l = none ↔ c ∉ l := by
  intro l
  induction l with
  | nil => simp [memchr]
  | cons b bs ih =>
    rw [memchr]
    by_cases hb : b = c
    · simp [hb]
    · rw [if_neg hb]
      cases h : memchr c bs with
      | some j =>
        simp only [List.mem_cons, not_or]
        constructor
        · intro hfalse; simp at hfalse
        · rintro ⟨h1, h2⟩
          have h3 := ih.mpr h2
          rw [h3] at h
          cases h
      | none =>
        simp only [List.mem_cons, not_or]
        constructor
        · intro _
          exact ⟨fun hc => hb hc.symm, ih.mp h⟩
        · intro _; trivial

theorem memchr_eq_some_decomp {c : ℕ} :
    ∀ {l : List ℕ} {i : ℕ}, memchr c l = some i →
      ∃ t₁ t₂, l = t₁ ++ c :: t₂ ∧ t₁.length = i ∧ c ∉ t₁ := by
  intro l
  induction l with
  | nil => intro i h; cases h
  | cons b bs ih =>
    intro i h
    by_cases hb : b = c
    · refine ⟨[], bs, by simp [hb], ?_, by simp⟩
      simp only [memchr, if_pos hb] at h
      cases h
      rfl
    · simp only [memchr, if_neg hb] at h
      cases hm : memchr c bs with
      | none => rw [hm] at h; cases h
      | some j =>
        rw [hm] at h
        cases h
        obtain ⟨t₁, t₂, hl, hlen, hni⟩ := ih hm
        refine ⟨b :: t₁, t₂, by simp [hl], by simp [hlen], ?_⟩
        simp only [List.mem_cons, not_or]
        exact ⟨fun hc => hb hc.symm, hni⟩

theorem find_new_line_pos_eq_none : ∀ {l : List ℕ}, find_new_line_pos l = none ↔ 10 ∉ l := by
  intro l
  induction l with
  | nil => simp [find_new_line_pos]
  | cons b bs ih =>
    rw [find_new_line_pos]
    cases h : find_new_line_pos bs with
    | some j =>
      simp only [List.mem_cons, not_or]
      constructor
      · intro hfalse; cases hfalse
      · rintro ⟨h1, h2⟩
        have h3 := ih.mpr h2
        rw [h3] at h
        cases h
    | none =>
      by_cases hb : b = 10
      · simp [hb]
      · rw [if_neg hb]
        simp only [List.mem_cons, not_or]
        constructor
        · intro _
          exact ⟨fun hc => hb hc.symm, ih.mp h⟩
        · intro _; trivial

theorem find_new_line_pos_eq_some :
    ∀ {l : List ℕ} {i : ℕ}, find_new_line_pos l = some i →
      ∃ t₁ t₂, l = t₁ ++ 10 :: t₂ ∧ t₁.length = i ∧ 10 ∉ t₂ := by
  intro l
  induction l with
  | nil => intro i h; cases h
  | cons b bs ih =>
    intro i h
    cases hm : find_new_line_pos bs with
    | some j =>
      simp only [find_new_line_pos, hm] at h
      cases h
      obtain ⟨t₁, t₂, hl, hlen, hni⟩ := ih hm
      exact ⟨b :: t₁, t₂, by simp [hl], by simp [hlen], hni⟩
    | none =>
      by_cases hb : b = 10
      · simp only [find_new_line_pos, hm, if_pos hb] at h
        cases h
        exact ⟨[], bs, by simp [hb], rfl, find_new_line_pos_eq_none.mp hm⟩
      · simp only [find_new_line_pos, hm, if_neg hb] at h
        cases h

theorem take_len_cons_append {α : Type} (t₁ : List α) (x : α) (t₂ : List α) :
    (t₁ ++ x :: t₂).take (t₁.length + 1) = t₁ ++ [x] := by
  induction t₁ with
  | nil => simp
  | cons a t ih => simp [ih]

theorem drop_len_cons_append {α : Type} (t₁ : List α) (x : α) (t₂ : List α) :
    (t₁ ++ x :: t₂).drop (t₁.length + 1) = t₂ := by
  induction t₁ with
  | nil => simp
  | cons a t ih => simp [ih]

theorem drop_len_append {α : Type} (t₁ t₂ : List α) :
    (t₁ ++ t₂).drop t₁.length = t₂ := by
  induction t₁ with
  | nil => simp
  | cons a t ih => simp [ih]

/-! Round-trip behaviour of the reader loop. -/

theorem splitGo_spec :
    ∀ (fuel : ℕ) (acc : List (List ℕ)) (leftover rest : List ℕ)
      (chunks : List (List ℕ)) (final : List ℕ),
      splitGo fuel acc leftover rest = some (chunks, final) →
      10 ∉ leftover →
      leftover.length < READ_BUF_SIZE →
      (∀ c ∈ acc, c ≠ [] ∧ c.getLast? = some 10) →
      chunks.flatten ++ final = acc.flatten ++ leftover ++ rest ∧
        (∀ c ∈ chunks, c ≠ [] ∧ c.getLast? = some 10) ∧ 10 ∉ final := by
  intro fuel
  induction fuel with
  | zero => intro acc leftover rest chunks final h; cases h
  | succ fuel ih =>
    intro acc leftover rest chunks final h hnl hlen hacc
    simp only [splitGo] at h
    by_cases hbr : min (READ_BUF_SIZE - leftover.length) rest.length = 0
    · rw [if_pos hbr] at h
      have hrest : rest = [] := by
        rcases Nat.min_eq_zero_iff.mp hbr with h0 | h0
        · omega
        · exact List.eq_nil_of_length_eq_zero h0
      simp only [Option.some.injEq, Prod.mk.injEq] at h
      obtain ⟨rfl, rfl⟩ := h
      subst hrest
      exact ⟨by simp, hacc, hnl⟩
    · rw [if_neg hbr] at h
      set bytesRead := min (READ_BUF_SIZE - leftover.length) rest.length with hbrdef
      have htakelen : (rest.take bytesRead).length = bytesRead := by
        rw [List.length_take]
        exact Nat.min_eq_left (Nat.min_le_right _ _)
      have hactlen : (leftover ++ rest.take bytesRead).length ≤ READ_BUF_SIZE := by
        rw [List.length_append, htakelen]
        have : bytesRead ≤ READ_BUF_SIZE - leftover.length := Nat.min_le_left _ _
        omega
      split at h
      · -- no newline in the filled buffer: carry everything forward
        rename_i hf
        by_cases hfull : (leftover ++ rest.take bytesRead).length = READ_BUF_SIZE
        · rw [if_pos hfull] at h; cases h
        · rw [if_neg hfull] at h
          have hres := ih acc (leftover ++ rest.take bytesRead) (rest.drop bytesRead)
            chunks final h (find_new_line_pos_eq_none.mp hf) (by omega) hacc
          refine ⟨?_, hres.2.1, hres.2.2⟩
          rw [hres.1, List.append_assoc, List.append_assoc, List.append_assoc,
            List.take_append_drop]
      · -- a newline was found: emit one chunk, carry the rest
        rename_i idx hf
        obtain ⟨t₁, t₂, hact, hlen₁, hnt₂⟩ := find_new_line_pos_eq_some hf
        have htake : (leftover ++ rest.take bytesRead).take (idx + 1) = t₁ ++ [10] := by
          rw [hact, ← hlen₁]
          exact take_len_cons_append t₁ 10 t₂
        have hdrop : (leftover ++ rest.take bytesRead).drop (idx + 1) = t₂ := by
          rw [hact, ← hlen₁]
          exact drop_len_cons_append t₁ 10 t₂
        rw [htake, hdrop] at h
        have hactful : (leftover ++ rest.take bytesRead).length = t₁.length + 1 + t₂.length := by
          rw [hact]; simp; omega
        have hres := ih (acc ++ [t₁ ++ [10]]) t₂ (rest.drop bytesRead) chunks final h hnt₂
          (by omega)
          (by
            intro c hc
            rcases List.mem_append.mp hc with hc | hc
            · exact hacc c hc
            · rcases List.mem_singleton.mp hc with rfl
              exact ⟨by simp, List.getLast?_concat t₁⟩)
        refine ⟨?_, hres.2.1, hres.2.2⟩
        rw [hres.1]
        have hkey : t₁ ++ ([10] ++ (t₂ ++ rest.drop bytesRead)) = leftover ++ rest := by
          rw [show ([10] : List ℕ) ++ (t₂ ++ rest.drop bytesRead)
                = (10 :: t₂) ++ rest.drop bytesRead from rfl,
            ← List.append_assoc, ← hact, List.append_assoc, List.take_append_drop]
        simp only [List.flatten_append, List.flatten_cons, List.flatten_nil, List.append_nil,
          List.append_assoc]
        rw [hkey]

/-- C2 counterexample: on the nine-byte stream `"A;1.0\nB;2"`, whose final
byte is not a newline, the reader loop terminates normally: it emits the
first record as the only chunk and leaves the unterminated tail `"B;2"`
unprocessed — no fatal condition is raised and the tail is silently
dropped. -/
theorem claim_C2_counterexample :
    splitRun exNoNl = some ([[65, 59, 49, 46, 48, 10]], [66, 59, 50]) := by
  with_unfolding_all decide

/-- C2 amended: when end-of-stream is reached, the reader loop terminates
normally; the emitted chunks plus the unprocessed leftover reconstruct the
stream, the leftover contains no newline (it is exactly the unterminated
partial record), and it is silently dropped rather than reported. -/
theorem claim_C2_amended :
    ∀ (stream : List ℕ) (chunks : List (List ℕ)) (leftover : List ℕ),
      splitRun stream = some (chunks, leftover) →
      chunks.flatten ++ leftover = stream ∧ 10 ∉ leftover ∧
        ∀ c ∈ chunks, c ≠ [] ∧ c.getLast? = some 10 := by
  intro stream chunks leftover h
  have hres := splitGo_spec (stream.length + 1) [] [] stream chunks leftover h
    (by simp) (by simp [READ_BUF_SIZE]) (by simp)
  refine ⟨?_, hres.2.2, hres.2.1⟩
  simpa using hres.1

theorem claim_C2_amended_witness :
    ([[65, 59, 49, 46, 48, 10]] : List (List ℕ)).flatten ++ [66, 59, 50] = exNoNl ∧
      10 ∉ ([66, 59, 50] : List ℕ) ∧
      ∀ c ∈ ([[65, 59, 49, 46, 48, 10]] : List (List ℕ)), c ≠ [] ∧ c.getLast? = some 10 :=
  claim_C2_amended exNoNl [[65, 59, 49, 46, 48, 10]] [66, 59, 50]
    (by with_unfolding_all decide)

/-- C5: for every stream ending in a newline on which the reader loop
completes (it panics only when a single record overflows the 128 KiB
buffer, the spec's capacity error), concatenating the emitted chunks in
emission order reproduces the stream exactly, and every chunk is nonempty
and ends with a newline, so no chunk boundary falls inside a record. -/
theorem claim_C5 :
    ∀ (stream : List ℕ) (chunks : List (List ℕ)) (leftover : List ℕ),
      stream.getLast? = some 10 →
      splitRun stream = some (chunks, leftover) →
      chunks.flatten = stream ∧ ∀ c ∈ chunks, c ≠ [] ∧ c.getLast? = some 10 := by
  intro stream chunks leftover hends h
  have hres := splitGo_spec (stream.length + 1) [] [] stream chunks leftover h
    (by simp) (by simp [READ_BUF_SIZE]) (by simp)
  have hflat : chunks.flatten ++ leftover = stream := by simpa using hres.1
  have hleft : leftover = [] := by
    rcases leftover.eq_nil_or_concat' with hnil | ⟨l', b, rfl⟩
    · exact hnil
    · exfalso
      rw [← hflat, ← List.append_assoc] at hends
      rw [List.getLast?_concat] at hends
      cases hends
      exact hres.2.2 (by simp)
  rw [hleft, List.append_nil] at hflat
  exact ⟨hflat, hres.2.1⟩

theorem claim_C5_witness :
    ([[65, 59, 49, 46, 48, 10]] : List (List ℕ)).flatten = [65, 59, 49, 46, 48, 10] ∧
      ∀ c ∈ ([[65, 59, 49, 46, 48, 10]] : List (List ℕ)), c ≠ [] ∧ c.getLast? = some 10 :=
  claim_C5 [65, 59, 49, 46, 48, 10] [[65, 59, 49, 46, 48, 10]] []
    (by decide) (by with_unfolding_all decide)

/-! Rounding: `round_off` is round-half-away-from-zero at the tenths digit
and idempotent. -/

theorem rustRound_intCast (m : ℤ) : rustRound (m : ℚ) = m := by
  unfold rustRound
  by_cases h : (0 : ℚ) ≤ (m : ℚ)
  · rw [if_pos h]
    have h2 : (m : ℚ) + 1/2 = ((m : ℤ) : ℚ) + 1/2 := by ring
    rw [h2, Int.floor_int_add]
    norm_num
  · rw [if_neg h]
    have h2 : (m : ℚ) - 1/2 = (-(1/2) : ℚ) + (m : ℤ) := by ring
    rw [h2, Int.ceil_add_int]
    norm_num

theorem rustRound_isInt (q : ℚ) : ∃ m : ℤ, rustRound q = (m : ℚ) := by
  unfold rustRound
  by_cases h : 0 ≤ q
  · exact ⟨⌊q + 1/2⌋, by rw [if_pos h]⟩
  · exact ⟨⌈q - 1/2⌉, by rw [if_neg h]⟩

theorem round_off_idem (x : ℚ) : round_off (round_off x) = round_off x := by
  obtain ⟨m, hm⟩ := rustRound_isInt (x * 10)
  unfold round_off
  rw [hm]
  have h1 : (m : ℚ)/10 * 10 = (m : ℚ) := by field_simp
  rw [h1, rustRound_intCast]

theorem rustRound_mono {q r : ℚ} (h : q ≤ r) : rustRound q ≤ rustRound r := by
  unfold rustRound
  by_cases hq : 0 ≤ q
  · rw [if_pos hq, if_pos (le_trans hq h)]
    exact_mod_cast Int.floor_le_floor (by linarith)
  · rw [if_neg hq]
    by_cases hr : 0 ≤ r
    · rw [if_pos hr]
      have h1 : (⌈q - 1/2⌉ : ℤ) ≤ 0 := by
        have h3 : ⌈q - 1/2⌉ ≤ ⌈(0 : ℚ)⌉ := Int.ceil_le_ceil (by linarith)
        simpa using h3
      have h2 : (0 : ℤ) ≤ ⌊r + 1/2⌋ := by
        have h3 : ⌊(0 : ℚ)⌋ ≤ ⌊r + 1/2⌋ := Int.floor_le_floor (by linarith)
        simpa using h3
      exact_mod_cast le_trans h1 h2
    · rw [if_neg hr]
      exact_mod_cast Int.ceil_le_ceil (by linarith)

theorem round_off_mono {q r : ℚ} (h : q ≤ r) : round_off q ≤ round_off r := by
  unfold round_off
  refine (div_le_div_iff_of_pos_right (by norm_num)).mpr ?_
  exact rustRound_mono (mul_le_mul_of_nonneg_right h (by norm_num))

/-- C9: the finalize-time rounding function rounds to one decimal place with
round-half-away-from-zero semantics at the tenths digit (exact half steps
above a nonnegative tenth round up, and their negatives round down, i.e.
away from zero; every result is an integer number of tenths), and it is
idempotent on every rational input. -/
theorem claim_C9 :
    (∀ n : ℕ, round_off ((n : ℚ)/10 + 1/20) = ((n : ℚ) + 1)/10) ∧
    (∀ n : ℕ, round_off (-((n : ℚ)/10 + 1/20)) = -(((n : ℚ) + 1)/10)) ∧
    (∀ x : ℚ, ∃ m : ℤ, round_off x = (m : ℚ)/10) ∧
    (∀ x : ℚ, round_off (round_off x) = round_off x) := by
  refine ⟨?_, ?_, ?_, round_off_idem⟩
  · intro n
    have h1 : ((n : ℚ)/10 + 1/20) * 10 = (n : ℚ) + 1/2 := by ring
    rw [round_off, h1, rustRound]
    rw [if_pos (by positivity)]
    have h2 : (n : ℚ) + 1/2 + 1/2 = ((n + 1 : ℤ) : ℚ) := by push_cast; ring
    rw [h2, Int.floor_intCast]
    push_cast
    ring
  · intro n
    have h1 : (-((n : ℚ)/10 + 1/20)) * 10 = -(n : ℚ) - 1/2 := by ring
    rw [round_off, h1, rustRound]
    have hn : (0 : ℚ) ≤ (n : ℚ) := Nat.cast_nonneg n
    rw [if_neg (by intro hcon; linarith)]
    have h2 : -(n : ℚ) - 1/2 - 1/2 = ((-(n + 1) : ℤ) : ℚ) := by push_cast; ring
    rw [h2, Int.ceil_intCast]
    push_cast
    ring
  · intro x
    obtain ⟨m, hm⟩ := rustRound_isInt (x * 10)
    exact ⟨m, by rw [round_off, hm]⟩

/-! Merge algebra of the streaming-mean variant. -/

namespace Main

theorem mergeStation_eq (e s : StationValues) :
    mergeStation e s =
      ⟨min e.min s.min, max e.max s.max, e.mean + s.mean, e.count + s.count⟩ := by
  have h1 : (if s.min < e.min then s.min else e.min) = min e.min s.min := by
    rcases lt_or_le s.min e.min with h | h
    · rw [if_pos h, min_eq_right h.le]
    · rw [if_neg (not_lt.mpr h), min_eq_left h]
  have h2 : (if e.max < s.max then s.max else e.max) = max e.max s.max := by
    rcases lt_or_le e.max s.max with h | h
    · rw [if_pos h, max_eq_right h.le]
    · rw [if_neg (not_lt.mpr h), max_eq_left h]
  rw [mergeStation, h1, h2]

theorem mergeStation_comm (a b : StationValues) : mergeStation a b = mergeStation b a := by
  simp [mergeStation_eq, min_comm, max_comm, add_comm]

theorem mergeStation_assoc (a b c : StationValues) :
    mergeStation (mergeStation a b) c = mergeStation a (mergeStation b c) := by
  simp [mergeStation_eq, min_assoc, max_assoc, add_assoc]

theorem mergeStation_right_comm (a b c : StationValues) :
    mergeStation (mergeStation a b) c = mergeStation (mergeStation a c) b := by
  rw [mergeStation_assoc, mergeStation_assoc, mergeStation_comm b c]

theorem mergeStation_left_comm (a b c : StationValues) :
    mergeStation a (mergeStation b c) = mergeStation b (mergeStation a c) := by
  rw [← mergeStation_assoc, mergeStation_comm a b, mergeStation_assoc]

/-- per-station combination of optional aggregates, as performed by the
`entry(..).and_modify(..).or_insert(..)` of the merge stage. -/
def combineOpt : Option StationValues → Option StationValues → Option StationValues
  | none, b => b
  | some a, none => some a
  | some a, some b => some (mergeStation a b)

theorem combineOpt_none_right (a : Option StationValues) : combineOpt a none = a := by
  cases a <;> rfl

theorem combineOpt_right_comm (b a₁ a₂ : Option StationValues) :
    combineOpt (combineOpt b a₁) a₂ = combineOpt (combineOpt b a₂) a₁ := by
  cases b <;> cases a₁ <;> cases a₂ <;>
    simp [combineOpt, mergeStation_comm, mergeStation_assoc, mergeStation_left_comm]

theorem lookupStation_eq_none_of_not_mem {m : StationsMap} {q : List ℕ}
    (h : q ∉ m.map Prod.fst) : lookupStation m q = none := by
  induction m with
  | nil => rfl
  | cons kv rest ih =>
    obtain ⟨k, v⟩ := kv
    simp only [List.map_cons, List.mem_cons, not_or] at h
    rw [lookupStation, if_neg (fun hk => h.1 hk.symm)]
    exact ih h.2

theorem lookupStation_insertMerge (m : StationsMap) (nm : List ℕ) (s : StationValues)
    (q : List ℕ) :
    lookupStation (insertMerge m nm s) q =
      if q = nm then combineOpt (lookupStation m q) (some s) else lookupStation m q := by
  induction m with
  | nil =>
    by_cases hq : q = nm
    · subst hq; simp [insertMerge, lookupStation, combineOpt]
    · have hq' : ¬nm = q := fun h => hq h.symm
      simp [insertMerge, lookupStation, hq, hq']
  | cons kv rest ih =>
    obtain ⟨k, e⟩ := kv
    by_cases hk : k = nm
    · by_cases hq : q = nm
      · have hkq : k = q := hk.trans hq.symm
        simp [insertMerge, lookupStation, hk, hq, hkq, combineOpt]
      · have hq' : ¬k = q := fun h => hq (h.symm.trans hk)
        have hnmq : ¬nm = q := fun h => hq h.symm
        simp [insertMerge, lookupStation, hk, hq, hq', hnmq]
    · by_cases hq : q = k
      · have hqnm : ¬q = nm := fun h => hk (hq.symm.trans h)
        have hkq : k = q := hq.symm
        simp [insertMerge, lookupStation, hk, hqnm, hkq]
      · have hq' : ¬k = q := fun h => hq h.symm
        simp [insertMerge, lookupStation, hk, hq', ih]

theorem lookupStation_mergeInto (acc w : StationsMap) (q : List ℕ)
    (hw : (w.map Prod.fst).Nodup) :
    lookupStation (mergeInto acc w) q = combineOpt (lookupStation acc q) (lookupStation w q) := by
  induction w generalizing acc with
  | nil => rw [mergeInto, List.foldl_nil, lookupStation, combineOpt_none_right]
  | cons kv w' ih =>
    obtain ⟨k0, v0⟩ := kv
    simp only [List.map_cons, List.nodup_cons] at hw
    have hstep : mergeInto acc ((k0, v0) :: w') = mergeInto (insertMerge acc k0 v0) w' := rfl
    rw [hstep, ih _ hw.2, lookupStation_insertMerge]
    by_cases hq : q = k0
    · subst hq
      have hw' : lookupStation w' q = none :=
        lookupStation_eq_none_of_not_mem hw.1
      rw [if_pos rfl, hw', combineOpt_none_right, lookupStation, if_pos rfl]
    · rw [if_neg hq, lookupStation, if_neg (fun h => hq h.symm)]

theorem lookupStation_foldl_mergeInto :
    ∀ (ws : List StationsMap) (acc : StationsMap) (q : List ℕ),
      (∀ w ∈ ws, (w.map Prod.fst).Nodup) →
      lookupStation (ws.foldl mergeInto acc) q =
        (ws.map (fun w => lookupStation w q)).foldl combineOpt (lookupStation acc q) := by
  intro ws
  induction ws with
  | nil => intro acc q _; rfl
  | cons w ws ih =>
    intro acc q hnd
    rw [List.foldl_cons, ih _ q (fun x hx => hnd x (List.mem_cons_of_mem _ hx)),
      lookupStation_mergeInto _ _ _ (hnd w (List.mem_cons_self _ _)), List.map_cons,
      List.foldl_cons]

theorem foldl_combineOpt_perm {l₁ l₂ : List (Option StationValues)} (p : l₁.Perm l₂) :
    ∀ b, l₁.foldl combineOpt b = l₂.foldl combineOpt b := by
  induction p with
  | nil => intro b; rfl
  | cons x _ ih => intro b; simp only [List.foldl_cons]; exact ih _
  | swap x y l => intro b; simp only [List.foldl_cons]; rw [combineOpt_right_comm]
  | trans _ _ ih1 ih2 => intro b; rw [ih1, ih2]

theorem lookupStation_finalizeMap (m : StationsMap) (q : List ℕ) :
    lookupStation (finalizeMap m) q = (lookupStation m q).map finalizeStation := by
  induction m with
  | nil => rfl
  | cons kv rest ih =>
    obtain ⟨k, v⟩ := kv
    by_cases hk : k = q
    · simp [finalizeMap, lookupStation, hk]
    · simp only [finalizeMap, List.map_cons] at ih ⊢
      rw [lookupStation, if_neg hk, lookupStation, if_neg hk]
      exact ih

/-! Count conservation. -/

theorem totalCount_cons (k : List ℕ) (v : StationValues) (rest : StationsMap) :
    totalCount ((k, v) :: rest) = v.count + totalCount rest := by
  simp [totalCount]

theorem totalCount_insertMerge (m : StationsMap) (nm : List ℕ) (s : StationValues) :
    totalCount (insertMerge m nm s) = totalCount m + s.count := by
  induction m with
  | nil => simp [insertMerge, totalCount]
  | cons kv rest ih =>
    obtain ⟨k, e⟩ := kv
    by_cases hk : k = nm
    · rw [insertMerge, if_pos hk, totalCount_cons, totalCount_cons]
      rw [mergeStation]
      simp only []
      omega
    · rw [insertMerge, if_neg hk, totalCount_cons, totalCount_cons, ih]
      omega

theorem totalCount_mergeInto (acc w : StationsMap) :
    totalCount (mergeInto acc w) = totalCount acc + totalCount w := by
  induction w generalizing acc with
  | nil => simp [mergeInto, totalCount]
  | cons kv w' ih =>
    obtain ⟨k0, v0⟩ := kv
    have hstep : mergeInto acc ((k0, v0) :: w') = mergeInto (insertMerge acc k0 v0) w' := rfl
    rw [hstep, ih, totalCount_insertMerge, totalCount_cons]
    omega

theorem totalCount_insertObserve (m : StationsMap) (nm : List ℕ) (v : ℚ) :
    totalCount (insertObserve m nm v) = totalCount m + 1 := by
  induction m with
  | nil => simp [insertObserve, totalCount, initStation]
  | cons kv rest ih =>
    obtain ⟨k, e⟩ := kv
    by_cases hk : k = nm
    · rw [insertObserve, if_pos hk, totalCount_cons, totalCount_cons]
      rw [observeStation]
      simp only []
      omega
    · rw [insertObserve, if_neg hk, totalCount_cons, totalCount_cons, ih]
      omega

theorem processGo_count :
    ∀ (fuel : ℕ) (buffer : List ℕ) (m m' : StationsMap),
      processGo fuel buffer m = .ok m' →
      totalCount m' = totalCount m + countGo fuel buffer := by
  intro fuel
  induction fuel with
  | zero => intro buffer m m' h; cases h
  | succ fuel ih =>
    intro buffer m m' h
    simp only [processGo] at h
    split at h
    · rename_i heq
      cases h
      simp [countGo, heq]
    · rename_i comma heq
      split at h
      · cases h
      · rename_i e heq2
        split at h
        · cases h
        · rename_i v heq3
          have hrec := ih _ _ _ h
          rw [hrec, totalCount_insertObserve]
          simp only [countGo, heq, heq2]
          omega

theorem countOfOpt_combineOpt (a b : Option StationValues) :
    ((combineOpt a b).map StationValues.count).getD 0 =
      (a.map StationValues.count).getD 0 + (b.map StationValues.count).getD 0 := by
  cases a <;> cases b <;> simp [combineOpt, mergeStation]

theorem countOfOpt_foldl_combineOpt :
    ∀ (l : List (Option StationValues)) (b : Option StationValues),
      ((l.foldl combineOpt b).map StationValues.count).getD 0 =
        (b.map StationValues.count).getD 0 +
          (l.map (fun o => (o.map StationValues.count).getD 0)).sum := by
  intro l
  induction l with
  | nil => intro b; simp
  | cons x l ih =>
    intro b
    rw [List.foldl_cons, ih, countOfOpt_combineOpt, List.map_cons, List.sum_cons]
    omega

end Main

/-! Min/mean/max invariants of the streaming-mean variant. -/

/-- invariant of a streaming-mean station entry: at least one observation,
`min ≤ max`, and the running sum lies between `count·min` and `count·max`. -/
def StatsInv (s : Main.StationValues) : Prop :=
  1 ≤ s.count ∧ s.min ≤ s.max ∧
    (s.count : ℚ) * s.min ≤ s.mean ∧ s.mean ≤ (s.count : ℚ) * s.max

instance (s : Main.StationValues) : Decidable (StatsInv s) := by
  unfold StatsInv
  infer_instance

theorem observeStation_eq (e : Main.StationValues) (v : ℚ) :
    Main.observeStation e v = ⟨min e.min v, max e.max v, e.mean + v, e.count + 1⟩ := by
  have h1 : (if v < e.min then v else e.min) = min e.min v := by
    rcases lt_or_le v e.min with h | h
    · rw [if_pos h, min_eq_right h.le]
    · rw [if_neg (not_lt.mpr h), min_eq_left h]
  have h2 : (if e.max < v then v else e.max) = max e.max v := by
    rcases lt_or_le e.max v with h | h
    · rw [if_pos h, max_eq_right h.le]
    · rw [if_neg (not_lt.mpr h), max_eq_left h]
  rw [Main.observeStation, h1, h2]

theorem statsInv_init (v : ℚ) : StatsInv (Main.initStation v) := by
  simp [StatsInv, Main.initStation]

theorem statsInv_observe {s : Main.StationValues} (v : ℚ) (h : StatsInv s) :
    StatsInv (Main.observeStation s v) := by
  obtain ⟨hc, hmm, hlo, hhi⟩ := h
  rw [observeStation_eq]
  have hc0 : (0 : ℚ) ≤ (s.count : ℚ) := by positivity
  have hminl : min s.min v ≤ s.min := min_le_left _ _
  have hminr : min s.min v ≤ v := min_le_right _ _
  have hmaxl : s.max ≤ max s.max v := le_max_left _ _
  have hmaxr : v ≤ max s.max v := le_max_right _ _
  have hlo2 : (s.count : ℚ) * min s.min v ≤ (s.count : ℚ) * s.min :=
    mul_le_mul_of_nonneg_left hminl hc0
  have hhi2 : (s.count : ℚ) * s.max ≤ (s.count : ℚ) * max s.max v :=
    mul_le_mul_of_nonneg_left hmaxl hc0
  refine ⟨by show 1 ≤ s.count + 1; omega, le_trans hminl (le_trans hmm hmaxl), ?_, ?_⟩
  · push_cast
    ring_nf
    nlinarith
  · push_cast
    ring_nf
    nlinarith

theorem statsInv_merge {a b : Main.StationValues} (ha : StatsInv a) (hb : StatsInv b) :
    StatsInv (Main.mergeStation a b) := by
  obtain ⟨hac, hamm, halo, hahi⟩ := ha
  obtain ⟨hbc, hbmm, hblo, hbhi⟩ := hb
  rw [Main.mergeStation_eq]
  have ha0 : (0 : ℚ) ≤ (a.count : ℚ) := by positivity
  have hb0 : (0 : ℚ) ≤ (b.count : ℚ) := by positivity
  have h1 : (a.count : ℚ) * min a.min b.min ≤ (a.count : ℚ) * a.min :=
    mul_le_mul_of_nonneg_left (min_le_left _ _) ha0
  have h2 : (b.count : ℚ) * min a.min b.min ≤ (b.count : ℚ) * b.min :=
    mul_le_mul_of_nonneg_left (min_le_right _ _) hb0
  have h3 : (a.count : ℚ) * a.max ≤ (a.count : ℚ) * max a.max b.max :=
    mul_le_mul_of_nonneg_left (le_max_left _ _) ha0
  have h4 : (b.count : ℚ) * b.max ≤ (b.count : ℚ) * max a.max b.max :=
    mul_le_mul_of_nonneg_left (le_max_right _ _) hb0
  refine ⟨by show 1 ≤ a.count + b.count; omega,
    le_trans (min_le_left _ _) (le_trans hamm (le_max_left _ _)), ?_, ?_⟩
  · push_cast
    ring_nf
    nlinarith
  · push_cast
    ring_nf
    nlinarith

theorem statsInv_finalize {s : Main.StationValues} (h : StatsInv s) :
    (Main.finalizeStation s).min ≤ (Main.finalizeStation s).mean ∧
      (Main.finalizeStation s).mean ≤ (Main.finalizeStation s).max := by
  obtain ⟨hc, _, hlo, hhi⟩ := h
  have hc0 : (0 : ℚ) < (s.count : ℚ) := by
    have : (1 : ℚ) ≤ (s.count : ℚ) := by exact_mod_cast hc
    linarith
  have hmean_lo : s.min ≤ s.mean / (s.count : ℚ) := by
    rw [le_div_iff₀ hc0]
    linarith [hlo]
  have hmean_hi : s.mean / (s.count : ℚ) ≤ s.max := by
    rw [div_le_iff₀ hc0]
    linarith [hhi]
  exact ⟨round_off_mono hmean_lo, round_off_mono hmean_hi⟩

/-! Symbolic evaluation of the exact-median histogram: the 1999-bucket grid
is far too deep for kernel evaluation, so concrete station states are
computed through structured lemmas about grid segments. -/

namespace MainOld

/-- a grid segment: buckets `a`, `a+1`, …, `a+m-1` with occupancy `occ`. -/
def gridSeg (a m : ℕ) (occ : ℕ → ℕ) : List (ℚ × ℕ) :=
  (List.range m).map (fun i => (gk (a + i), occ (a + i)))

/-- occupancy after one `bumpFreq` at bucket `j`. -/
def bumpOcc (occ : ℕ → ℕ) (j : ℕ) : ℕ → ℕ := fun x => if x = j then occ x + 1 else occ x

/-- the all-zero occupancy of `StationValues::new`. -/
def occ0 : ℕ → ℕ := fun _ => 0

theorem gridSeg_cons (a m : ℕ) (occ : ℕ → ℕ) :
    gridSeg a (m + 1) occ = (gk a, occ a) :: gridSeg (a + 1) m occ := by
  unfold gridSeg
  rw [List.range_succ_eq_map, List.map_cons, List.map_map]
  have hhead : (gk (a + 0), occ (a + 0)) = (gk a, occ a) := by norm_num
  rw [hhead]
  congr 1
  apply List.map_congr_left
  intro i _
  simp only [Function.comp_apply]
  have harith : a + Nat.succ i = a + 1 + i := by omega
  rw [harith]

theorem gridSeg_congr {a m : ℕ} {occ₁ occ₂ : ℕ → ℕ}
    (h : ∀ x, a ≤ x → x < a + m → occ₁ x = occ₂ x) :
    gridSeg a m occ₁ = gridSeg a m occ₂ := by
  unfold gridSeg
  apply List.map_congr_left
  intro i hi
  rw [List.mem_range] at hi
  rw [h (a + i) (by omega) (by omega)]

theorem gridSeg_append (m₁ : ℕ) :
    ∀ (a m₂ : ℕ) (occ : ℕ → ℕ),
      gridSeg a (m₁ + m₂) occ = gridSeg a m₁ occ ++ gridSeg (a + m₁) m₂ occ := by
  induction m₁ with
  | zero =>
    intro a m₂ occ
    simp [gridSeg]
  | succ m₁ ih =>
    intro a m₂ occ
    have h1 : m₁ + 1 + m₂ = (m₁ + m₂) + 1 := by omega
    rw [h1, gridSeg_cons, ih (a + 1) m₂ occ, gridSeg_cons]
    have h2 : a + 1 + m₁ = a + (m₁ + 1) := by omega
    rw [h2, List.cons_append]

theorem gridPairs_eq : gridPairs = gridSeg 0 1999 occ0 := by
  unfold gridPairs gridSeg
  apply List.map_congr_left
  intro x _
  simp [occ0]

theorem gk_inj {x y : ℕ} (h : gk x = gk y) : x = y := by
  unfold gk at h
  have h10 : (x : ℚ) * (1/10) = (y : ℚ) * (1/10) := by linarith
  have hxy : (x : ℚ) = (y : ℚ) :=
    mul_right_cancel₀ (show (1/10 : ℚ) ≠ 0 by norm_num) h10
  exact_mod_cast hxy

theorem bumpFreq_gridSeg :
    ∀ (m a : ℕ) (occ : ℕ → ℕ) (j : ℕ), a ≤ j → j < a + m →
      bumpFreq (gridSeg a m occ) (gk j) = some (gridSeg a m (bumpOcc occ j)) := by
  intro m
  induction m with
  | zero => intro a occ j h1 h2; omega
  | succ m ih =>
    intro a occ j h1 h2
    rw [gridSeg_cons, gridSeg_cons]
    by_cases haj : a = j
    · subst haj
      rw [bumpFreq, if_pos rfl]
      have hocc : bumpOcc occ a a = occ a + 1 := by simp [bumpOcc]
      have hseg : gridSeg (a + 1) m (bumpOcc occ a) = gridSeg (a + 1) m occ :=
        gridSeg_congr (fun x hx1 hx2 => by simp [bumpOcc]; omega)
      rw [hocc, hseg]
    · have hne : gk a ≠ gk j := fun h => haj (gk_inj h)
      rw [bumpFreq, if_neg hne, ih (a + 1) occ j (by omega) (by omega)]
      have hocc : bumpOcc occ j a = occ a := by simp [bumpOcc]; omega
      simp [hocc]

/-- evaluation of `StationValues::new_with_value` at grid point `j`. -/
theorem new_with_value_eval (j : ℕ) (hj : j < 1999) :
    new_with_value (gk j) = .ok ⟨gk j, gk j, gridSeg 0 1999 (bumpOcc occ0 j), 1⟩ := by
  unfold new_with_value
  rw [gridPairs_eq, bumpFreq_gridSeg 1999 0 occ0 j (by omega) (by omega)]

/-- evaluation of `observe` at grid point `j` on a full-grid state. -/
theorem observe_eval (j : ℕ) (hj : j < 1999) (mn mx : ℚ) (occ : ℕ → ℕ) (c : ℕ) :
    observe ⟨mn, mx, gridSeg 0 1999 occ, c⟩ (gk j) =
      .ok ⟨if gk j < mn then gk j else mn, if mx < gk j then gk j else mx,
        gridSeg 0 1999 (bumpOcc occ j), c + 1⟩ := by
  unfold observe
  simp only []
  rw [bumpFreq_gridSeg 1999 0 occ j (by omega) (by omega)]

end MainOld

namespace MainOld

/-! Rank selection over grid states. -/

theorem get_nth_go_skip :
    ∀ (m a : ℕ) (occ : ℕ → ℕ) (n cur : ℕ) (l₂ : List (ℚ × ℕ)),
      (∀ x, a ≤ x → x < a + m → occ x = 0) → cur < n →
      get_nth_go n cur (gridSeg a m occ ++ l₂) = get_nth_go n cur l₂ := by
  intro m
  induction m with
  | zero => intro a occ n cur l₂ _ _; simp [gridSeg]
  | succ m ih =>
    intro a occ n cur l₂ hz hc
    rw [gridSeg_cons, List.cons_append, get_nth_go]
    have h0 : occ a = 0 := hz a (le_refl a) (by omega)
    rw [h0, if_neg (by omega)]
    have hrec := ih (a + 1) occ n (cur + 0) l₂ (fun x h1 h2 => hz x (by omega) (by omega))
      (by omega)
    exact hrec

theorem get_nth_value_rank_one {occ : ℕ → ℕ} {j : ℕ} (hj : j < 1999)
    (hz : ∀ x, x < j → occ x = 0) (hocc : 1 ≤ occ j) (mn mx : ℚ) (c : ℕ) :
    get_nth_value ⟨mn, mx, gridSeg 0 1999 occ, c⟩ 1 = gk j := by
  unfold get_nth_value
  simp only []
  have hsplit : gridSeg 0 1999 occ = gridSeg 0 j occ ++ gridSeg (0 + j) (1999 - j) occ := by
    rw [← gridSeg_append]
    congr 1
    omega
  rw [hsplit, get_nth_go_skip j 0 occ 1 0 _ (fun x h1 h2 => hz x (by omega)) (by omega)]
  have hm : 1999 - j = (1999 - j - 1) + 1 := by omega
  rw [hm, gridSeg_cons, get_nth_go]
  rw [if_pos (by simp; omega)]
  congr 1
  omega

theorem get_nth_value_rank_zero (occ : ℕ → ℕ) (mn mx : ℚ) (c : ℕ) :
    get_nth_value ⟨mn, mx, gridSeg 0 1999 occ, c⟩ 0 = gk 0 := by
  unfold get_nth_value
  simp only []
  rw [show gridSeg 0 1999 occ = (gk 0, occ 0) :: gridSeg (0 + 1) 1998 occ from
    gridSeg_cons 0 1998 occ]
  rw [get_nth_go, if_pos (Nat.zero_le _)]

/-! Histogram bucket sums. -/

theorem sum_snd_gridSeg_zero :
    ∀ (m a : ℕ), ((gridSeg a m occ0).map (fun kv => kv.2)).sum = 0 := by
  intro m
  induction m with
  | zero => intro a; simp [gridSeg]
  | succ m ih =>
    intro a
    rw [gridSeg_cons, List.map_cons, List.sum_cons, ih (a + 1)]
    simp [occ0]

theorem sum_snd_gridSeg_bump :
    ∀ (m a : ℕ) (occ : ℕ → ℕ) (j : ℕ), a ≤ j → j < a + m →
      ((gridSeg a m (bumpOcc occ j)).map (fun kv => kv.2)).sum =
        ((gridSeg a m occ).map (fun kv => kv.2)).sum + 1 := by
  intro m
  induction m with
  | zero => intro a occ j h1 h2; omega
  | succ m ih =>
    intro a occ j h1 h2
    rw [gridSeg_cons, gridSeg_cons, List.map_cons, List.map_cons, List.sum_cons, List.sum_cons]
    by_cases haj : a = j
    · subst haj
      have h3 : bumpOcc occ a a = occ a + 1 := by simp [bumpOcc]
      have h4 : gridSeg (a + 1) m (bumpOcc occ a) = gridSeg (a + 1) m occ :=
        gridSeg_congr (fun x hx1 hx2 => by simp [bumpOcc]; omega)
      rw [h3, h4]
      omega
    · have h3 : bumpOcc occ j a = occ a := by simp [bumpOcc]; omega
      rw [h3, ih (a + 1) occ j (by omega) (by omega)]
      omega

theorem bumpFreq_sum :
    ∀ (l : List (ℚ × ℕ)) (v : ℚ) (r : List (ℚ × ℕ)), bumpFreq l v = some r →
      (r.map (fun kv => kv.2)).sum = (l.map (fun kv => kv.2)).sum + 1 := by
  intro l
  induction l with
  | nil => intro v r h; cases h
  | cons kv rest ih =>
    intro v r h
    obtain ⟨k, c⟩ := kv
    by_cases hk : k = v
    · rw [bumpFreq, if_pos hk] at h
      cases h
      simp only [List.map_cons, List.sum_cons]
      omega
    · rw [bumpFreq, if_neg hk] at h
      cases hm : bumpFreq rest v with
      | none => rw [hm] at h; cases h
      | some r' =>
        rw [hm] at h
        simp only [Option.map_some'] at h
        cases h
        simp only [List.map_cons, List.sum_cons]
        rw [ih v r' hm]
        omega

/-- keys are preserved by `bumpFreq`. -/
theorem bumpFreq_keys :
    ∀ (l : List (ℚ × ℕ)) (v : ℚ) (r : List (ℚ × ℕ)), bumpFreq l v = some r →
      r.map Prod.fst = l.map Prod.fst := by
  intro l
  induction l with
  | nil => intro v r h; cases h
  | cons kv rest ih =>
    intro v r h
    obtain ⟨k, c⟩ := kv
    by_cases hk : k = v
    · rw [bumpFreq, if_pos hk] at h
      cases h
      simp
    · rw [bumpFreq, if_neg hk] at h
      cases hm : bumpFreq rest v with
      | none => rw [hm] at h; cases h
      | some r' =>
        rw [hm] at h
        simp only [Option.map_some'] at h
        cases h
        simp [ih v r' hm]

/-- a successful `bumpFreq` means the value is one of the keys. -/
theorem bumpFreq_some_mem :
    ∀ (l : List (ℚ × ℕ)) (v : ℚ) (r : List (ℚ × ℕ)), bumpFreq l v = some r →
      v ∈ l.map Prod.fst := by
  intro l
  induction l with
  | nil => intro v r h; cases h
  | cons kv rest ih =>
    intro v r h
    obtain ⟨k, c⟩ := kv
    by_cases hk : k = v
    · simp [hk]
    · rw [bumpFreq, if_neg hk] at h
      cases hm : bumpFreq rest v with
      | none => rw [hm] at h; cases h
      | some r' => simp [ih v r' hm]

end MainOld

namespace MainOld

/-! Concrete station states, computed symbolically. -/

theorem gk_1009 : gk 1009 = 1 := by unfold gk; norm_num

theorem gk_1019 : gk 1019 = 2 := by unfold gk; norm_num

theorem gk_1029 : gk 1029 = 3 := by unfold gk; norm_num

theorem gk_1049 : gk 1049 = 5 := by unfold gk; norm_num

theorem gk_zero : gk 0 = -999/10 := by unfold gk; norm_num

theorem statsOf_1 : statsOf [1] = .ok ⟨1, 1, gridSeg 0 1999 (bumpOcc occ0 1009), 1⟩ := by
  have h1 := new_with_value_eval 1009 (by omega)
  rw [gk_1009] at h1
  simp only [statsOf, h1, obsFold]

theorem statsOf_12 :
    statsOf [1, 2] = .ok ⟨1, 2, gridSeg 0 1999 (bumpOcc (bumpOcc occ0 1009) 1019), 2⟩ := by
  have h1 := new_with_value_eval 1009 (by omega)
  rw [gk_1009] at h1
  have h2 := observe_eval 1019 (by omega) 1 1 (bumpOcc occ0 1009) 1
  rw [gk_1019, if_neg (by norm_num), if_pos (by norm_num)] at h2
  simp only [statsOf, h1, obsFold, h2]

theorem statsOf_123 :
    statsOf [1, 2, 3] =
      .ok ⟨1, 3, gridSeg 0 1999 (bumpOcc (bumpOcc (bumpOcc occ0 1009) 1019) 1029), 3⟩ := by
  have h1 := new_with_value_eval 1009 (by omega)
  rw [gk_1009] at h1
  have h2 := observe_eval 1019 (by omega) 1 1 (bumpOcc occ0 1009) 1
  rw [gk_1019, if_neg (by norm_num), if_pos (by norm_num)] at h2
  have h3 := observe_eval 1029 (by omega) 1 2 (bumpOcc (bumpOcc occ0 1009) 1019) 2
  rw [gk_1029, if_neg (by norm_num), if_pos (by norm_num)] at h3
  simp only [statsOf, h1, obsFold, h2, h3]

theorem statsOf_5 : statsOf [5] = .ok ⟨5, 5, gridSeg 0 1999 (bumpOcc occ0 1049), 1⟩ := by
  have h1 := new_with_value_eval 1049 (by omega)
  rw [gk_1049] at h1
  simp only [statsOf, h1, obsFold]

theorem oldStats_of_ok {vs : List ℚ} {s : StationValues} (h : statsOf vs = .ok s) :
    oldStats vs = s := by
  unfold oldStats
  rw [h]
  rfl

theorem oldStats_1 : oldStats [1] = ⟨1, 1, gridSeg 0 1999 (bumpOcc occ0 1009), 1⟩ :=
  oldStats_of_ok statsOf_1

theorem oldStats_12 :
    oldStats [1, 2] = ⟨1, 2, gridSeg 0 1999 (bumpOcc (bumpOcc occ0 1009) 1019), 2⟩ :=
  oldStats_of_ok statsOf_12

theorem oldStats_123 :
    oldStats [1, 2, 3] =
      ⟨1, 3, gridSeg 0 1999 (bumpOcc (bumpOcc (bumpOcc occ0 1009) 1019) 1029), 3⟩ :=
  oldStats_of_ok statsOf_123

theorem oldStats_5 : oldStats [5] = ⟨5, 5, gridSeg 0 1999 (bumpOcc occ0 1049), 1⟩ :=
  oldStats_of_ok statsOf_5

/-! Concrete medians: the rank selection of `get_nth_value` is off by one
(`n <= cur + value` instead of a strict bound), so index 0 always returns
the first bucket key, and index `n ≥ 1` returns the bucket holding the
`(n-1)`-th order statistic. -/

theorem get_median_oldStats_12 : get_median (oldStats [1, 2]) = -989/20 := by
  rw [oldStats_12]
  unfold get_median
  simp only []
  norm_num
  rw [get_nth_value_rank_zero]
  rw [get_nth_value_rank_one (by omega : (1009 : ℕ) < 1999)
    (fun x hx => by simp [bumpOcc, occ0, show x ≠ 1019 by omega, show x ≠ 1009 by omega])
    (by norm_num [bumpOcc, occ0])]
  rw [gk_zero, gk_1009]
  norm_num

theorem get_median_oldStats_123 : get_median (oldStats [1, 2, 3]) = 1 := by
  have hrank := @get_nth_value_rank_one
    (bumpOcc (bumpOcc (bumpOcc occ0 1009) 1019) 1029) 1009 (by omega)
    (fun x hx => by
      simp [bumpOcc, occ0, show x ≠ 1029 by omega, show x ≠ 1019 by omega,
        show x ≠ 1009 by omega])
    (by norm_num [bumpOcc, occ0]) 1 3 3
  rw [gk_1009] at hrank
  rw [oldStats_123]
  simp only [get_median]
  rw [if_neg (by norm_num)]
  rw [show (3 : ℕ) / 2 = 1 from by norm_num]
  exact hrank

/-! The stale merge stage of main_old.rs. -/

theorem mergeStationOld_count (e s : StationValues) : (mergeStationOld e s).count = e.count :=
  rfl

theorem mergeAllOld_pair (nm : List ℕ) (s t : StationValues) :
    mergeAllOld [[(nm, s)], [(nm, t)]] = [(nm, mergeStationOld s t)] := by
  simp [mergeAllOld, mergeIntoOld, insertMergeOld]

theorem lookupOld_single (nm : List ℕ) (u : StationValues) : lookupOld [(nm, u)] nm = some u := by
  simp [lookupOld]

/-! Grid keys are exactly the one-decimal values in [-99.9, 99.9]. -/

theorem gridPairs_key (v : ℚ) (h : v ∈ gridPairs.map Prod.fst) :
    ∃ k : ℤ, v = (k : ℚ)/10 ∧ -999 ≤ k ∧ k ≤ 999 := by
  unfold gridPairs at h
  rw [List.map_map] at h
  simp only [List.mem_map, List.mem_range, Function.comp_apply] at h
  obtain ⟨x, hx, hv⟩ := h
  refine ⟨(x : ℤ) - 999, ?_, by omega, by omega⟩
  rw [← hv]
  unfold gk
  push_cast
  ring

end MainOld

/-! The `process_chunk` precondition: every `;` is followed by a later
`\n`. -/

/-- checker for the `process_chunk` precondition: every `;` in the list has
a `\n` somewhere after it. -/
def semicolonCovered : List ℕ → Bool
  | [] => true
  | b :: bs => (if b = 59 then decide (10 ∈ bs) else true) && semicolonCovered bs

theorem semicolonCovered_drop :
    ∀ (n : ℕ) (l : List ℕ), semicolonCovered l = true → semicolonCovered (l.drop n) = true := by
  intro n
  induction n with
  | zero => intro l h; simpa using h
  | succ n ih =>
    intro l h
    cases l with
    | nil => rfl
    | cons b bs =>
      rw [List.drop_succ_cons]
      apply ih
      rw [semicolonCovered, Bool.and_eq_true] at h
      exact h.2

theorem mem_nl_of_getLast? : ∀ (l : List ℕ), l.getLast? = some 10 → 10 ∈ l := by
  intro l
  induction l with
  | nil => intro h; cases h
  | cons b bs ih =>
    intro h
    cases bs with
    | nil =>
      have hb : b = 10 := by simpa using h
      simp [hb]
    | cons c cs =>
      rw [List.getLast?_cons_cons] at h
      exact List.mem_cons_of_mem _ (ih h)

theorem semicolonCovered_of_lastNl :
    ∀ (l : List ℕ), l.getLast? = some 10 → semicolonCovered l = true := by
  intro l
  induction l with
  | nil => intro h; cases h
  | cons b bs ih =>
    intro h
    cases hbs : bs with
    | nil =>
      subst hbs
      have hb : b = 10 := by simpa using h
      subst hb
      rfl
    | cons c cs =>
      subst hbs
      rw [List.getLast?_cons_cons] at h
      rw [semicolonCovered, ih h, Bool.and_true]
      by_cases hb : b = 59
      · rw [if_pos hb]
        simpa using mem_nl_of_getLast? _ h
      · rw [if_neg hb]

theorem semicolonCovered_mid :
    ∀ (t₁ t₂ : List ℕ), semicolonCovered (t₁ ++ 59 :: t₂) = true → 10 ∈ t₂ := by
  intro t₁
  induction t₁ with
  | nil =>
    intro t₂ h
    rw [List.nil_append, semicolonCovered, if_pos rfl, Bool.and_eq_true] at h
    exact of_decide_eq_true h.1
  | cons b bs ih =>
    intro t₂ h
    rw [List.cons_append, semicolonCovered, Bool.and_eq_true] at h
    exact ih t₂ h.2

theorem processGo_covered :
    ∀ (fuel : ℕ) (buffer : List ℕ) (m : Main.StationsMap),
      semicolonCovered buffer = true →
      Main.processGo fuel buffer m ≠ .error .newlineUnwrap := by
  intro fuel
  induction fuel with
  | zero => intro buffer m _ h; cases h
  | succ fuel ih =>
    intro buffer m hsc
    simp only [Main.processGo]
    split
    · intro h; cases h
    · rename_i comma heq
      obtain ⟨t₁, t₂, hbuf, hlen, _⟩ := memchr_eq_some_decomp heq
      have hdrop : buffer.drop comma = 59 :: t₂ := by
        rw [hbuf, ← hlen]
        exact drop_len_append t₁ (59 :: t₂)
      have hmem : 10 ∈ t₂ := semicolonCovered_mid t₁ t₂ (hbuf ▸ hsc)
      split
      · rename_i heq2
        exfalso
        rw [hdrop, memchr, if_neg (by norm_num)] at heq2
        cases hm : memchr 10 t₂ with
        | none => exact (memchr_eq_none.mp hm) hmem
        | some j => rw [hm] at heq2; cases heq2
      · rename_i e heq2
        split
        · intro h; cases h
        · rename_i v heq3
          exact ih _ _ (semicolonCovered_drop (comma + e + 1) buffer hsc)

/-! Shared concrete computations about the stale merge stage of
main_old.rs. -/

theorem mergedOld_count_12_5 :
    (MainOld.lookupOld (MainOld.mergeAllOld [exW1, exW2]) nameA).map
      MainOld.StationValues.count = some 2 := by
  have h1 : MainOld.mergeAllOld [exW1, exW2] =
      [(nameA, MainOld.mergeStationOld (MainOld.oldStats [1, 2]) (MainOld.oldStats [5]))] :=
    MainOld.mergeAllOld_pair nameA _ _
  rw [h1, MainOld.lookupOld_single]
  simp only [Option.map_some']
  rw [MainOld.mergeStationOld_count, MainOld.oldStats_12]

theorem mergedOld_count_5_12 :
    (MainOld.lookupOld (MainOld.mergeAllOld [exW2, exW1]) nameA).map
      MainOld.StationValues.count = some 1 := by
  have h1 : MainOld.mergeAllOld [exW2, exW1] =
      [(nameA, MainOld.mergeStationOld (MainOld.oldStats [5]) (MainOld.oldStats [1, 2]))] :=
    MainOld.mergeAllOld_pair nameA _ _
  rw [h1, MainOld.lookupOld_single]
  simp only [Option.map_some']
  rw [MainOld.mergeStationOld_count, MainOld.oldStats_5]

theorem workerOld_count_12 :
    (MainOld.lookupOld exW1 nameA).map MainOld.StationValues.count = some 2 := by
  have h1 : MainOld.lookupOld exW1 nameA = some (MainOld.oldStats [1, 2]) :=
    MainOld.lookupOld_single nameA _
  rw [h1]
  simp only [Option.map_some']
  rw [MainOld.oldStats_12]

theorem workerOld_count_5 :
    (MainOld.lookupOld exW2 nameA).map MainOld.StationValues.count = some 1 := by
  have h1 : MainOld.lookupOld exW2 nameA = some (MainOld.oldStats [5]) :=
    MainOld.lookupOld_single nameA _
  rw [h1]
  simp only [Option.map_some']
  rw [MainOld.oldStats_5]

theorem observe_oldStats_1 :
    MainOld.observe (MainOld.oldStats [1]) 2 = .ok (MainOld.oldStats [1, 2]) := by
  rw [MainOld.oldStats_1, MainOld.oldStats_12]
  have h2 := MainOld.observe_eval 1019 (by omega) 1 1 (MainOld.bumpOcc MainOld.occ0 1009) 1
  rw [MainOld.gk_1019, if_neg (by norm_num), if_pos (by norm_num)] at h2
  exact h2

theorem count_sumFreq_oldStats_1 :
    (MainOld.oldStats [1]).count = MainOld.sumFreq (MainOld.oldStats [1]) := by
  rw [MainOld.oldStats_1]
  simp only [MainOld.sumFreq]
  rw [MainOld.sum_snd_gridSeg_bump 1999 0 MainOld.occ0 1009 (by omega) (by omega),
    MainOld.sum_snd_gridSeg_zero]

/-- small streaming-mean worker maps for the C4 witness. -/
def m1ex : Main.StationsMap := [([65], ⟨1, 2, 3, 2⟩)]

def m2ex : Main.StationsMap := [([65], ⟨0, 5, 5, 1⟩), ([66], ⟨7, 7, 7, 1⟩)]

/-! The claims. -/

/-- C1: the claim is false on the code — the median computed by finalize is
not the median of the fully sorted multiset.  For the observations
1.0, 2.0, 3.0 the reference oracle (sort, take the `count/2`-th order
statistic) gives 2.0, but `get_median` returns 1.0: `get_nth_value` uses
`n <= cur + value` instead of a strict bound, so it is off by one, even
granting the most favourable (ascending) iteration order of the frequency
`HashMap`, whose order is in reality unspecified. -/
theorem claim_C1 :
    MainOld.get_median (MainOld.oldStats [1, 2, 3]) = 1 ∧
      sortedMedian [1, 2, 3] = 2 ∧
      MainOld.get_median (MainOld.oldStats [1, 2, 3]) ≠ sortedMedian [1, 2, 3] := by
  have hs : sortedMedian [1, 2, 3] = 2 := by with_unfolding_all decide
  refine ⟨MainOld.get_median_oldStats_123, hs, ?_⟩
  rw [MainOld.get_median_oldStats_123, hs]
  norm_num

/-- C3: in the streaming-mean variant (main.rs) counts are conserved: the
merge stage adds per-station counts, so the total count of a merged map is
the sum of the totals, and `process_chunk` adds exactly one count per
record parsed.  Per worker, the exact-median variant keeps
`count = sum of histogram buckets` under `observe`.  But the claim fails
after the exact-median merge stage (main_old.rs lines 199-216): its
`and_modify` arm updates only `min`/`max` (it even references a
non-existent `mean` field, so the file does not compile), so a station
seen by two workers keeps only the first worker's count: workers with
counts 2 and 1 for station A merge to count 2, not 3. -/
theorem claim_C3 :
    (∀ acc w : Main.StationsMap,
        Main.totalCount (Main.mergeInto acc w) = Main.totalCount acc + Main.totalCount w) ∧
    (∀ (chunk : List ℕ) (m m' : Main.StationsMap),
        Main.process_chunk chunk m = .ok m' →
        Main.totalCount m' = Main.totalCount m + Main.countRecords chunk) ∧
    (∀ (s s' : MainOld.StationValues) (v : ℚ),
        MainOld.observe s v = .ok s' → s.count = MainOld.sumFreq s →
        s'.count = MainOld.sumFreq s') ∧
    ((MainOld.lookupOld (MainOld.mergeAllOld [exW1, exW2]) nameA).map
        MainOld.StationValues.count = some 2 ∧
      (MainOld.lookupOld exW1 nameA).map MainOld.StationValues.count = some 2 ∧
      (MainOld.lookupOld exW2 nameA).map MainOld.StationValues.count = some 1) := by
  refine ⟨Main.totalCount_mergeInto, ?_, ?_,
    mergedOld_count_12_5, workerOld_count_12, workerOld_count_5⟩
  · intro chunk m m' h
    exact Main.processGo_count _ _ _ _ h
  · intro s s' v h hcs
    unfold MainOld.observe at h
    split at h
    · cases h
    · rename_i freq' hb
      cases h
      simp only [MainOld.sumFreq] at hcs ⊢
      rw [MainOld.bumpFreq_sum _ _ _ hb]
      omega

theorem claim_C3_witness :
    Main.totalCount [([65], ⟨1, 1, 1, 1⟩)] =
        Main.totalCount [] + Main.countRecords [65, 59, 49, 46, 48, 10] ∧
      (MainOld.oldStats [1, 2]).count = MainOld.sumFreq (MainOld.oldStats [1, 2]) :=
  ⟨claim_C3.2.1 [65, 59, 49, 46, 48, 10] [] [([65], ⟨1, 1, 1, 1⟩)] (by with_unfolding_all rfl),
   claim_C3.2.2.1 (MainOld.oldStats [1]) (MainOld.oldStats [1, 2]) 2 observe_oldStats_1
     count_sumFreq_oldStats_1⟩

/-- C4: for the streaming-mean variant the claim holds: folding any
permutation of the per-worker maps through the merge stage yields an
extensionally identical finalized table (per-station merge is commutative
and associative).  For the stale exact-median variant it fails: its merge
keeps the first argument's `count`/`frequency`, so merging workers with
counts 2 and 1 for the same station in the two orders yields different
tables (count 2 versus count 1). -/
theorem claim_C4 :
    (∀ (ws ws' : List Main.StationsMap), ws.Perm ws' →
        (∀ w ∈ ws, (w.map Prod.fst).Nodup) →
        ∀ q, Main.lookupStation (Main.finalizeMap (Main.mergeAll ws)) q =
          Main.lookupStation (Main.finalizeMap (Main.mergeAll ws')) q) ∧
    (MainOld.lookupOld (MainOld.mergeAllOld [exW1, exW2]) nameA).map
        MainOld.StationValues.count ≠
      (MainOld.lookupOld (MainOld.mergeAllOld [exW2, exW1]) nameA).map
        MainOld.StationValues.count := by
  constructor
  · intro ws ws' hp hnd q
    rw [Main.lookupStation_finalizeMap, Main.lookupStation_finalizeMap]
    congr 1
    unfold Main.mergeAll
    rw [Main.lookupStation_foldl_mergeInto ws [] q hnd,
      Main.lookupStation_foldl_mergeInto ws' [] q (fun w hw => hnd w (hp.mem_iff.mpr hw))]
    exact Main.foldl_combineOpt_perm (hp.map _) _
  · rw [mergedOld_count_12_5, mergedOld_count_5_12]
    simp

theorem claim_C4_witness :
    Main.lookupStation (Main.finalizeMap (Main.mergeAll [m1ex, m2ex])) [65] =
      Main.lookupStation (Main.finalizeMap (Main.mergeAll [m2ex, m1ex])) [65] :=
  claim_C4.1 [m1ex, m2ex] [m2ex, m1ex] (List.Perm.swap m2ex m1ex [])
    (by with_unfolding_all decide) [65]

/-- well-formedness of an exact-median station state: its histogram keys
are exactly the grid keys (guaranteed by `StationValues::new`, and
preserved by `observe` since `bumpFreq` keeps keys). -/
def OldWF (s : MainOld.StationValues) : Prop :=
  s.frequency.map Prod.fst = MainOld.gridPairs.map Prod.fst

/-- C6: under the exact-median strategy, observing a value that is not an
exact one-decimal value in [-99.9, 99.9] fails at the moment of
observation: both the `and_modify` arm (`observe`) and the first-insert arm
(`new_with_value`) hit the `frequency.get_mut(..).unwrap()` panic
immediately — nothing is deferred to finalize or render time. -/
theorem claim_C6 :
    ∀ (s : MainOld.StationValues) (v : ℚ),
      OldWF s →
      (¬∃ k : ℤ, v = (k : ℚ)/10 ∧ -999 ≤ k ∧ k ≤ 999) →
      MainOld.observe s v = .error .domainUnwrap ∧
        MainOld.new_with_value v = .error .domainUnwrap := by
  intro s v hwf hdom
  have hbump : ∀ l : List (ℚ × ℕ), l.map Prod.fst = MainOld.gridPairs.map Prod.fst →
      MainOld.bumpFreq l v = none := by
    intro l hl
    cases hb : MainOld.bumpFreq l v with
    | none => rfl
    | some r =>
      exact absurd (MainOld.gridPairs_key v (hl ▸ MainOld.bumpFreq_some_mem l v r hb)) hdom
  constructor
  · unfold MainOld.observe
    rw [hbump s.frequency hwf]
  · unfold MainOld.new_with_value
    rw [hbump MainOld.gridPairs rfl]

theorem claim_C6_witness :
    MainOld.observe MainOld.new 500 = .error .domainUnwrap ∧
      MainOld.new_with_value 500 = .error .domainUnwrap :=
  claim_C6 MainOld.new 500 rfl (by
    rintro ⟨k, hk, _hk1, hk2⟩
    have hkk : (k : ℚ) = 5000 := by
      field_simp at hk
      linarith
    have hk5 : k = 5000 := by exact_mod_cast hkk
    omega)

/-- C7: in the streaming-mean variant the invariant holds: it is
established by the first observation, preserved by `observe` and by the
merge stage, and after finalize `min ≤ mean ≤ max` (rounding is monotone).
In the exact-median variant the claim fails at finalize: for the two
observations 1.0 and 2.0, `get_median` returns −49.45, strictly below the
station's min of 1.0, because of the rank-selection off-by-one. -/
theorem claim_C7 :
    (∀ v : ℚ, StatsInv (Main.initStation v)) ∧
    (∀ (s : Main.StationValues) (v : ℚ), StatsInv s → StatsInv (Main.observeStation s v)) ∧
    (∀ a b : Main.StationValues, StatsInv a → StatsInv b → StatsInv (Main.mergeStation a b)) ∧
    (∀ s : Main.StationValues, StatsInv s →
        s.min ≤ s.max ∧
        (Main.finalizeStation s).min ≤ (Main.finalizeStation s).mean ∧
        (Main.finalizeStation s).mean ≤ (Main.finalizeStation s).max) ∧
    MainOld.get_median (MainOld.oldStats [1, 2]) < (MainOld.oldStats [1, 2]).min := by
  refine ⟨statsInv_init, fun s v h => statsInv_observe v h,
    fun a b ha hb => statsInv_merge ha hb,
    fun s h => ⟨h.2.1, (statsInv_finalize h).1, (statsInv_finalize h).2⟩, ?_⟩
  rw [MainOld.get_median_oldStats_12, MainOld.oldStats_12]
  norm_num

theorem claim_C7_witness :
    StatsInv (Main.observeStation ⟨10, 20, 30, 2⟩ 5) ∧
      StatsInv (Main.mergeStation ⟨10, 20, 30, 2⟩ ⟨5, 6, 11, 2⟩) ∧
      (Main.finalizeStation ⟨10, 20, 30, 2⟩).min ≤ (Main.finalizeStation ⟨10, 20, 30, 2⟩).mean :=
  ⟨claim_C7.2.1 ⟨10, 20, 30, 2⟩ 5 (by with_unfolding_all decide),
   claim_C7.2.2.1 ⟨10, 20, 30, 2⟩ ⟨5, 6, 11, 2⟩ (by with_unfolding_all decide)
     (by with_unfolding_all decide),
   (claim_C7.2.2.2.1 ⟨10, 20, 30, 2⟩ (by with_unfolding_all decide)).2.1⟩

/-- C8: the scenario input `"A;10.0\nA;20.0\nB;5.5\n"` under the
streaming-mean pipeline produces, sorted by name bytes, A = 10.0/15.0/20.0
(min / arithmetic mean rounded to one decimal / max) and
B = 5.5/5.5/5.5. -/
theorem claim_C8 :
    runPipeline exInput =
      some [([65], ⟨10, 20, 15, 2⟩), ([66], ⟨11/2, 11/2, 11/2, 1⟩)] := by
  with_unfolding_all decide

/-- C10: the `process_chunk` loop never hits the unwrapped newline lookup
when every `;` in the chunk is followed by a later `\n` (whatever fuel, so
in particular it is total up to the other panics), and the splitter's
guarantee — the chunk ends with `\n` — implies that precondition, making
the panic branch unreachable in the pipeline; on a chunk violating it,
such as `"B;2"`, the unwrap panics. -/
theorem claim_C10 :
    (∀ (fuel : ℕ) (chunk : List ℕ) (m : Main.StationsMap),
        semicolonCovered chunk = true →
        Main.processGo fuel chunk m ≠ .error .newlineUnwrap) ∧
    (∀ (chunk : List ℕ) (m : Main.StationsMap),
        chunk.getLast? = some 10 →
        Main.process_chunk chunk m ≠ .error .newlineUnwrap) ∧
    Main.process_chunk [66, 59, 50] [] = .error .newlineUnwrap :=
  ⟨fun fuel chunk m h => processGo_covered fuel chunk m h,
   fun chunk m h => processGo_covered _ _ _ (semicolonCovered_of_lastNl chunk h),
   by rfl⟩

theorem claim_C10_witness :
    Main.processGo 5 [65, 59, 49, 10] [] ≠ .error .newlineUnwrap ∧
      Main.process_chunk [65, 59, 49, 10] [] ≠ .error .newlineUnwrap :=
  ⟨claim_C10.1 5 [65, 59, 49, 10] [] (by decide),
   claim_C10.2.1 [65, 59, 49, 10] [] (by decide)⟩
